import Mathlib

/-!
Verification of the FASTAccess library: a FASTA index builder and a
seek-based subsequence fetcher, with a caching facade.

The facade (`api.py`) is embedded from the source.  The core index
builder (`build_index`) and fetcher (`fetch_subseq`) live in modules
that are not part of the staged sources (`fastaccess/index.py`,
`fastaccess/store.py`), so they are modelled from the specification's
algorithm descriptions, as noted in their doc comments.

A text file is modelled as a list of lines (each a `List Char` without
its terminator); every line is terminated by a single newline character,
so the raw byte sequence of the file is `rawChars lines`.
-/

deriving instance DecidableEq for Except

namespace FASTAccess

/-- The error taxonomy of the spec (section 7). -/
inductive FastaError where
  | FormatError
  | DuplicateNameError
  | NotFoundError
  | RangeError
deriving Repr, DecidableEq

/-- `Entry`: per-record layout metadata (spec section 3; cached by
`api.py`'s `_save_cache`/`_load_cache`). -/
structure Entry where
  name : List Char
  description : List Char
  length : Nat
  line_blen : Nat
  line_len : Nat
  offset : Nat
deriving Repr, DecidableEq

/-- The index: an ordered mapping from record name to `Entry`. -/
abbrev Index := List (List Char × Entry)

/-- Lookup by name, first match (the dictionary access `index[name]`). -/
def lookupIndex : Index → List Char → Option Entry
  | [], _ => none
  | (n, e) :: rest, name => if n = name then some e else lookupIndex rest name

/-- The names of an index, in order. -/
def keysOf (idx : Index) : List (List Char) := idx.map (fun p => p.1)

/-- A line is a header when its first character is the record marker. -/
def isHeaderB : List Char → Bool
  | [] => false
  | c :: _ => c = '>'

/-- The name token of a header line: the first whitespace-delimited field
after the marker. -/
def nameTok (l : List Char) : List Char :=
  (l.drop 1).takeWhile (fun c => !c.isWhitespace)

/-- The description of a header line: the remainder after the name token,
with leading whitespace removed. -/
def descOf (l : List Char) : List Char :=
  ((l.drop 1).dropWhile (fun c => !c.isWhitespace)).dropWhile (fun c => c.isWhitespace)

/-- The record being scanned by the index builder. -/
structure CurRecord where
  name : List Char
  description : List Char
  offset : Nat
  length : Nat
  line_blen : Nat
  line_len : Nat
  nlines : Nat
  closed : Bool
deriving Repr, DecidableEq

/-- A fresh in-progress record, right after its header line. -/
def freshCur (hdr : List Char) (off : Nat) : CurRecord :=
  ⟨nameTok hdr, descOf hdr, off, 0, 0, 0, 0, false⟩

/-- The `Entry` of a completed record. -/
def mkEntry (c : CurRecord) : Entry :=
  ⟨c.name, c.description, c.length, c.line_blen, c.line_len, c.offset⟩

/-- Insert a completed record, failing fast on a repeated name. -/
def insertEntry (acc : Index) (c : CurRecord) : Except FastaError Index :=
  if (lookupIndex acc c.name).isSome then .error .DuplicateNameError
  else .ok (acc ++ [(c.name, mkEntry c)])

/-- Finalize the in-progress record, if any. -/
def finalize (acc : Index) : Option CurRecord → Except FastaError Index
  | none => .ok acc
  | some c => insertEntry acc c

/-- Modelled from the spec: one content line consumed by the index builder
(`build_index` in the missing `fastaccess/index.py`, spec section 4.1).
The first content line fixes `line_blen`/`line_len`; a later line must
match `line_blen` exactly, except that a strictly shorter line is accepted
as a tentative final line, after which further content is a format error. -/
def feedLine (c : CurRecord) (l : List Char) : Except FastaError CurRecord :=
  if c.closed then .error .FormatError
  else if c.nlines = 0 then
    .ok { c with line_blen := l.length, line_len := l.length + 1,
                 length := l.length, nlines := 1 }
  else if l.length = c.line_blen then
    .ok { c with length := c.length + l.length, nlines := c.nlines + 1 }
  else if l.length < c.line_blen then
    .ok { c with length := c.length + l.length, nlines := c.nlines + 1, closed := true }
  else .error .FormatError

/-- Feeding a whole run of content lines. -/
def feedCur (c : CurRecord) : List (List Char) → Except FastaError CurRecord
  | [] => .ok c
  | l :: rest =>
    match feedLine c l with
    | .error e => .error e
    | .ok c2 => feedCur c2 rest

/-- Modelled from the spec: the single forward scan of `build_index`
(missing `fastaccess/index.py`, spec section 4.1), tracking the byte
cursor; a header line finalizes the current record and starts a new one
whose offset is the position immediately after the header's terminator. -/
def go : List (List Char) → Nat → Index → Option CurRecord → Except FastaError Index
  | [], _, acc, cur => finalize acc cur
  | l :: rest, cursor, acc, cur =>
    if isHeaderB l then
      match finalize acc cur with
      | .error e => .error e
      | .ok acc2 => go rest (cursor + l.length + 1) acc2
          (some (freshCur l (cursor + l.length + 1)))
    else
      match cur with
      | none => .error .FormatError
      | some c =>
        match feedLine c l with
        | .error e => .error e
        | .ok c2 => go rest (cursor + l.length + 1) acc (some c2)

/-- Modelled from the spec: `build_index(path) -> Index` of the missing
`fastaccess/index.py` (spec sections 4.1 and 6): an empty file is a
format error, otherwise one scan over the lines. -/
def build_index (lines : List (List Char)) : Except FastaError Index :=
  if lines.isEmpty then .error .FormatError else go lines 0 [] none

/-- Total byte count of a run of lines, one terminator byte per line. -/
def bytesL (lines : List (List Char)) : Nat := (lines.map (fun l => l.length + 1)).sum

/-- The raw byte sequence of a file given as terminator-stripped lines. -/
def rawChars (lines : List (List Char)) : List Char :=
  (lines.map (fun l => l ++ ['\n'])).flatten

/-- Total base count of a run of content lines. -/
def sumLens (body : List (List Char)) : Nat := (body.map List.length).sum

/-- An ASCII lowercase letter. -/
def isLowerAlpha (c : Char) : Bool := 97 ≤ c.toNat && c.toNat ≤ 122

/-- Modelled from the spec: per-character uppercasing applied by the
fetcher of the missing `fastaccess/store.py` ("returns ... uppercased"). -/
def upChar (c : Char) : Char :=
  if isLowerAlpha c then Char.ofNat (c.toNat - 32) else c

/-- Modelled from the spec: the chunked read of the fetcher (missing
`fastaccess/store.py`, spec section 4.2): within each content line bases
run from the current in-line offset up to `blen`, after which a
terminator of width `tw` is skipped.  The fuel argument is a recursion
bound; each step consumes at least one base, so `needed` fuel suffices. -/
def readChunksAux (raw : List Char) (blen tw : Nat) :
    Nat → Nat → Nat → Nat → List Char
  | 0, _, _, _ => []
  | fuel + 1, pos, needed, oil =>
    if needed = 0 then []
    else
      let t := min (blen - oil) needed
      if t = 0 then []
      else ((raw.drop pos).take t) ++ readChunksAux raw blen tw fuel (pos + t + tw) (needed - t) 0

/-- The chunked read, starting `needed` bases at byte `pos`, in-line
offset `oil`. -/
def readChunks (raw : List Char) (pos needed oil blen tw : Nat) : List Char :=
  readChunksAux raw blen tw needed pos needed oil

/-- Modelled from the spec: `fetch_subseq(path, index, name, start, stop)`
of the missing `fastaccess/store.py` (spec section 4.2): name lookup,
range check against the entry, then seek arithmetic
`offset + (zstart / line_blen) * line_len + zstart % line_blen`
and a chunked read of `stop - start + 1` bases, uppercased. -/
def fetch_subseq (raw : List Char) (index : Index) (name : List Char)
    (start stop : Int) : Except FastaError (List Char) :=
  match lookupIndex index name with
  | none => .error .NotFoundError
  | some e =>
    if start < 1 ∨ stop < start ∨ (e.length : Int) < stop then .error .RangeError
    else
      let zstart := (start - 1).toNat
      let needed := (stop - start + 1).toNat
      let oil := zstart % e.line_blen
      let pos := e.offset + (zstart / e.line_blen) * e.line_len + oil
      .ok ((readChunks raw pos needed oil e.line_blen (e.line_len - e.line_blen)).map upChar)

/-- The base-complement table of `FastaStore._reverse_complement`
(`api.py`), unmapped characters passed through. -/
def complementChar (c : Char) : Char :=
  if c = 'A' then 'T' else if c = 'T' then 'A'
  else if c = 'G' then 'C' else if c = 'C' then 'G'
  else if c = 'N' then 'N' else if c = 'R' then 'Y'
  else if c = 'Y' then 'R' else if c = 'S' then 'S'
  else if c = 'W' then 'W' else if c = 'K' then 'M'
  else if c = 'M' then 'K' else if c = 'B' then 'V'
  else if c = 'V' then 'B' else if c = 'D' then 'H'
  else if c = 'H' then 'D' else c

/-- `FastaStore._reverse_complement` (`api.py`): complement of each base
of the reversed sequence. -/
def reverse_complement (s : List Char) : List Char :=
  (s.reverse).map complementChar

/-- `FastaStore.fetch` (`api.py`): a single `fetch_subseq` call, with an
optional reverse-complement of the result. -/
def fetchF (raw : List Char) (index : Index) (name : List Char)
    (start stop : Int) (rc : Bool) : Except FastaError (List Char) :=
  match fetch_subseq raw index name start stop with
  | .error e => .error e
  | .ok s => .ok (if rc then reverse_complement s else s)

/-- `FastaStore.fetch_many` (`api.py`): the list comprehension
`[self.fetch(n, s, e) for (n, s, e) in queries]`, where the first raised
error aborts the batch. -/
def fetch_many (raw : List Char) (index : Index) :
    List (List Char × Int × Int) → Except FastaError (List (List Char))
  | [] => .ok []
  | (n, s, e) :: rest =>
    match fetchF raw index n s e false with
    | .error err => .error err
    | .ok r =>
      match fetch_many raw index rest with
      | .error err => .error err
      | .ok rs => .ok (r :: rs)

/-- One per-sequence record of the cache sidecar file written by
`FastaStore._save_cache` (`api.py`). -/
structure CacheEntry where
  name : List Char
  description : List Char
  length : Nat
  line_blen : Nat
  line_len : Nat
  offset : Nat
deriving Repr, DecidableEq

/-- The parsed cache sidecar: the stored `fasta_mtime` (absent when the
key is missing) and the per-name sequence records. -/
structure CacheData where
  fasta_mtime : Option Int
  sequences : List (List Char × CacheEntry)
deriving Repr, DecidableEq

/-- `FastaStore._save_cache` (`api.py`): the encoded cache contents,
keyed by the source file's modification time. -/
def save_cache (mtime : Int) (index : Index) : CacheData :=
  ⟨some mtime,
   index.map (fun p =>
     (p.1, ⟨p.2.name, p.2.description, p.2.length, p.2.line_blen, p.2.line_len, p.2.offset⟩))⟩

/-- `FastaStore._load_cache` (`api.py`): `none` when no readable cache
file exists; otherwise the index is reconstructed exactly when the stored
`fasta_mtime` equals the file's current modification time. -/
def load_cache (cacheFile : Option CacheData) (currentMtime : Int) : Option Index :=
  match cacheFile with
  | none => none
  | some cd =>
    if cd.fasta_mtime = some currentMtime then
      some (cd.sequences.map (fun p =>
        (p.1, ⟨p.2.name, p.2.description, p.2.length, p.2.line_blen, p.2.line_len, p.2.offset⟩)))
    else none

/-- `FastaStore.__init__` (`api.py`): load from cache when enabled and
valid, else build the index from the file; the boolean is
`_loaded_from_cache`. -/
def initStore (useCache : Bool) (cacheFile : Option CacheData) (currentMtime : Int)
    (lines : List (List Char)) : Except FastaError (Index × Bool) :=
  if useCache then
    match load_cache cacheFile currentMtime with
    | some idx => .ok (idx, true)
    | none => (build_index lines).map (fun i => (i, false))
  else (build_index lines).map (fun i => (i, false))

/-- Interior content lines (all but the last) have exactly `blen` bases
and the last line has at most `blen`: the shape `build_index` accepts. -/
def bodyFits (blen : Nat) : List (List Char) → Bool
  | [] => true
  | [l] => decide (l.length ≤ blen)
  | l :: l2 :: rest => decide (l.length = blen) && bodyFits blen (l2 :: rest)

/-- Some non-final content line differs in length from the first content
line: the "ragged interior" condition of claim C6. -/
def raggedB (body : List (List Char)) : Bool :=
  (List.range body.length).any (fun i =>
    decide (i + 1 < body.length) &&
    decide ((body.getD i []).length ≠ (body.getD 0 []).length))

/-- The byte position of 0-based base `i` of a record whose content
starts at byte `off` with `blen` bases per line and one terminator byte. -/
def posOf (off blen i : Nat) : Nat := off + (i / blen) * (blen + 1) + i % blen

/-- The name tokens of the header lines of a file, in order. -/
def headerToks (lines : List (List Char)) : List (List Char) :=
  (lines.filter (fun l => isHeaderB l)).map nameTok

/-- The name of the in-progress record, as a list of keys. -/
def curNames : Option CurRecord → List (List Char)
  | none => []
  | some c => [c.name]

/-- Concrete file refuting claim C5 as stated: a duplicated name token
behind a ragged record body, scanned before the duplicate is finalized. -/
def exC5 : List (List Char) :=
  [['>', 'X'], ['>', 'X'], ['A', 'B'], ['A'], ['A', 'B']]

/-- Concrete file refuting claim C6 as stated: a duplicate name is
finalized before the ragged record is scanned. -/
def exC6 : List (List Char) :=
  [['>', 'X'], ['>', 'X'], ['>', 'Y'], ['A', 'B'], ['A'], ['A', 'B']]

/-- Concrete file refuting claim C2 as stated: one record whose single
content line is blank, so `entry.length = 0` and the full-range fetch
`(1, 0)` is rejected. -/
def exC2 : List (List Char) := [['>', 'X'], []]

/-- A small well-formed one-record file used by the witnesses. -/
def exW : List (List Char) := [['>', 's', ' ', 'd'], ['A', 'C'], ['G']]

/-- The index `build_index` produces for `exW`. -/
def exWIdx : Index := [(['s'], ⟨['s'], ['d'], 3, 2, 3, 5⟩)]

theorem complementChar_involutive (c : Char) :
    complementChar (complementChar c) = c := by
  by_cases h1 : c = 'A'
  · subst h1; decide
  by_cases h2 : c = 'T'
  · subst h2; decide
  by_cases h3 : c = 'G'
  · subst h3; decide
  by_cases h4 : c = 'C'
  · subst h4; decide
  by_cases h5 : c = 'N'
  · subst h5; decide
  by_cases h6 : c = 'R'
  · subst h6; decide
  by_cases h7 : c = 'Y'
  · subst h7; decide
  by_cases h8 : c = 'S'
  · subst h8; decide
  by_cases h9 : c = 'W'
  · subst h9; decide
  by_cases h10 : c = 'K'
  · subst h10; decide
  by_cases h11 : c = 'M'
  · subst h11; decide
  by_cases h12 : c = 'B'
  · subst h12; decide
  by_cases h13 : c = 'V'
  · subst h13; decide
  by_cases h14 : c = 'D'
  · subst h14; decide
  by_cases h15 : c = 'H'
  · subst h15; decide
  have hc : complementChar c = c := by
    simp [complementChar, h1, h2, h3, h4, h5, h6, h7, h8, h9, h10, h11, h12, h13, h14, h15]
  rw [hc, hc]



/-- C10: the reverse-complement helper of `api.py` is an involution
(mapped bases are complemented pairwise, unmapped characters pass
through), and its output has the same length as its input. -/
theorem C10_revcomp_involution (s : List Char) :
    reverse_complement (reverse_complement s) = s ∧
    (reverse_complement s).length = s.length := by
  constructor
  · unfold reverse_complement
    rw [← List.map_reverse, List.reverse_reverse, List.map_map]
    have h : ∀ a ∈ s, (complementChar ∘ complementChar) a = id a := by
      intro a _; simp [complementChar_involutive a]
    rw [List.map_congr_left h, List.map_id]
  · simp [reverse_complement]

/-- C8: `fetch_many` returns a value exactly when applying the single
fetch independently to each `(name, start, stop)` query in order
succeeds on every one, and then it returns precisely the list of those
single-fetch results, with no reordering or coalescing. -/
theorem C8_fetch_many_pointwise (raw : List Char) (idx : Index)
    (qs : List (List Char × Int × Int)) (rs : List (List Char)) :
    fetch_many raw idx qs = .ok rs ↔
      qs.map (fun q => fetchF raw idx q.1 q.2.1 q.2.2 false) = rs.map Except.ok := by
  induction qs generalizing rs with
  | nil => cases rs <;> simp [fetch_many]
  | cons q rest ih =>
    obtain ⟨n, s, e⟩ := q
    simp only [fetch_many, List.map_cons]
    cases hf : fetchF raw idx n s e false with
    | error err =>
      constructor
      · intro h; simp at h
      · intro h
        cases rs with
        | nil => simp at h
        | cons r2 rs2 => simp at h
    | ok r =>
      cases hm : fetch_many raw idx rest with
      | error err =>
        constructor
        · intro h; simp at h
        · intro h
          cases rs with
          | nil => simp at h
          | cons r2 rs2 =>
            simp at h
            have := (ih rs2).mpr h.2
            rw [hm] at this
            cases this
      | ok rs1 =>
        constructor
        · intro h
          simp at h
          subst h
          simp [(ih rs1).mp hm]
        · intro h
          cases rs with
          | nil => simp at h
          | cons r2 rs2 =>
            simp at h
            obtain ⟨hr, hrest⟩ := h
            have h2 := (ih rs2).mpr hrest
            rw [hm] at h2
            simp at h2
            subst hr h2
            rfl

/-- C9: the cache encode/decode of `api.py` round-trips the index under
an unchanged modification time: loading what was saved reconstructs the
index exactly, so every entry's name, description, length, line_blen,
line_len and offset fields equal the originals. -/
theorem C9_cache_roundtrip (idx : Index) (mtime : Int) :
    load_cache (some (save_cache mtime idx)) mtime = some idx := by
  have h : ∀ p ∈ idx,
      ((fun p : List Char × CacheEntry =>
          ((p.1 : List Char),
           (⟨p.2.name, p.2.description, p.2.length, p.2.line_blen, p.2.line_len, p.2.offset⟩ : Entry))) ∘
        (fun p : List Char × Entry =>
          (p.1, (⟨p.2.name, p.2.description, p.2.length, p.2.line_blen, p.2.line_len, p.2.offset⟩ : CacheEntry)))) p
        = id p := by
    rintro ⟨nm, en⟩ _
    cases en
    rfl
  simp only [load_cache, save_cache, List.map_map]
  rw [if_true, List.map_congr_left h, List.map_id]

/-- C7: with caching enabled, initialization uses the cache exactly when
a readable cache file exists whose stored `fasta_mtime` equals the
current modification time — the sole invalidation rule; whenever the
load fails the index is rebuilt from the source file. -/
theorem C7_cache_invalidation (cacheFile : Option CacheData) (mtime : Int)
    (lines : List (List Char)) :
    ((∃ idx, initStore true cacheFile mtime lines = .ok (idx, true)) ↔
      ∃ cd, cacheFile = some cd ∧ cd.fasta_mtime = some mtime) ∧
    (load_cache cacheFile mtime = none →
      initStore true cacheFile mtime lines = (build_index lines).map (fun i => (i, false))) := by
  constructor
  · cases cacheFile with
    | none =>
      simp only [initStore, load_cache, if_pos rfl]
      constructor
      · rintro ⟨idx, h⟩
        cases hb : build_index lines with
        | error e2 => rw [hb] at h; cases h
        | ok i => rw [hb] at h; simp [Except.map] at h
      · rintro ⟨cd, h, _⟩; cases h
    | some cd =>
      by_cases hm : cd.fasta_mtime = some mtime
      · simp only [initStore, load_cache, if_pos rfl, if_pos hm]
        constructor
        · intro _; exact ⟨cd, rfl, hm⟩
        · intro _; exact ⟨_, rfl⟩
      · simp only [initStore, load_cache, if_pos rfl, if_neg hm]
        constructor
        · rintro ⟨idx, h⟩
          cases hb : build_index lines with
          | error e2 => rw [hb] at h; cases h
          | ok i => rw [hb] at h; simp [Except.map] at h
        · rintro ⟨cd2, h, hm2⟩
          injection h with h
          subst h
          exact absurd hm2 hm
  · intro hl
    simp [initStore, hl]

/-- C4: `fetch_subseq` fails with `NotFoundError` exactly when the name
is absent from the index, fails with `RangeError` exactly when the name
is present but `start < 1`, `stop < start` or `stop > entry.length` (so
a length-zero entry rejects every request), and succeeds exactly on
valid requests — a failure never returns a string. -/
theorem C4_fetch_errors (raw : List Char) (idx : Index) (name : List Char)
    (start stop : Int) :
    (fetch_subseq raw idx name start stop = .error .NotFoundError ↔
      lookupIndex idx name = none) ∧
    (fetch_subseq raw idx name start stop = .error .RangeError ↔
      ∃ e, lookupIndex idx name = some e ∧
        (start < 1 ∨ stop < start ∨ (e.length : Int) < stop)) ∧
    (∀ e, lookupIndex idx name = some e → e.length = 0 →
      fetch_subseq raw idx name start stop = .error .RangeError) ∧
    ((∃ s, fetch_subseq raw idx name start stop = .ok s) ↔
      ∃ e, lookupIndex idx name = some e ∧
        1 ≤ start ∧ start ≤ stop ∧ stop ≤ (e.length : Int)) := by
  cases hl : lookupIndex idx name with
  | none =>
    have hfetch : fetch_subseq raw idx name start stop = .error .NotFoundError := by
      simp [fetch_subseq, hl]
    refine ⟨Iff.intro (fun _ => rfl) (fun _ => hfetch), ?_, ?_, ?_⟩
    · constructor
      · intro h; simp [hfetch] at h
      · rintro ⟨e2, he2, _⟩; cases he2
    · intro e2 he2 _; cases he2
    · constructor
      · rintro ⟨s, hs⟩; simp [hfetch] at hs
      · rintro ⟨e2, he2, _⟩; cases he2
  | some e =>
    by_cases hr : start < 1 ∨ stop < start ∨ (e.length : Int) < stop
    · have hfetch : fetch_subseq raw idx name start stop = .error .RangeError := by
        simp [fetch_subseq, hl, hr]
      refine ⟨?_, Iff.intro (fun _ => ⟨e, rfl, hr⟩) (fun _ => hfetch), fun _ _ _ => hfetch, ?_⟩
      · constructor
        · intro h; simp [hfetch] at h
        · intro h; cases h
      · constructor
        · rintro ⟨s, hs⟩; simp [hfetch] at hs
        · rintro ⟨e2, he2, h1, h2, h3⟩
          injection he2 with he2
          subst he2
          exfalso; omega
    · obtain ⟨s, hok⟩ : ∃ s, fetch_subseq raw idx name start stop = .ok s := by
        simp only [fetch_subseq, hl]
        rw [if_neg hr]
        exact ⟨_, rfl⟩
      refine ⟨?_, ?_, ?_, ?_⟩
      · constructor
        · intro h; simp [hok] at h
        · intro h; cases h
      · constructor
        · intro h; simp [hok] at h
        · rintro ⟨e2, he2, hcond⟩
          injection he2 with he2
          subst he2
          exact absurd hcond hr
      · intro e2 he2 hz
        injection he2 with he2
        subst he2
        exfalso; omega
      · exact Iff.intro (fun _ => ⟨e, rfl, by omega, by omega, by omega⟩) (fun _ => ⟨s, hok⟩)



theorem slice_eq_map_getD (l : List Char) (pos t : Nat) (d : Char) (h : pos + t ≤ l.length) :
    (l.drop pos).take t = (List.range t).map (fun k => l.getD (pos + k) d) := by
  apply List.ext_getElem
  · simp only [List.length_take, List.length_drop, List.length_map, List.length_range]
    omega
  · intro i h1 h2
    simp only [List.getElem_take, List.getElem_drop, List.getElem_map, List.getElem_range]
    rw [List.getD_eq_getElem?_getD, List.getElem?_eq_getElem (by
      simp only [List.length_take, List.length_drop] at h1
      omega : pos + i < l.length)]
    rfl

theorem getD_append_left {α : Type} {l1 l2 : List α} {n : Nat} (h : n < l1.length) (d : α) :
    (l1 ++ l2).getD n d = l1.getD n d := by
  rw [List.getD_eq_getElem?_getD, List.getD_eq_getElem?_getD, List.getElem?_append, if_pos h]

theorem getD_append_right {α : Type} (l1 l2 : List α) (k : Nat) (d : α) :
    (l1 ++ l2).getD (l1.length + k) d = l2.getD k d := by
  rw [List.getD_eq_getElem?_getD, List.getD_eq_getElem?_getD, List.getElem?_append,
    if_neg (by omega), Nat.add_sub_cancel_left]

theorem rawChars_cons (l : List Char) (ls : List (List Char)) :
    rawChars (l :: ls) = (l ++ ['\n']) ++ rawChars ls := by
  simp [rawChars]

theorem rawChars_append (a b : List (List Char)) :
    rawChars (a ++ b) = rawChars a ++ rawChars b := by
  simp [rawChars]

theorem bytesL_cons (l : List Char) (ls : List (List Char)) :
    bytesL (l :: ls) = (l.length + 1) + bytesL ls := by
  simp [bytesL]

theorem bytesL_append (a b : List (List Char)) :
    bytesL (a ++ b) = bytesL a + bytesL b := by
  simp [bytesL]

theorem length_rawChars : ∀ ls : List (List Char), (rawChars ls).length = bytesL ls
  | [] => rfl
  | l :: ls => by
    rw [rawChars_cons, bytesL_cons]
    simp [length_rawChars ls]
    omega

theorem sumLens_cons (l : List Char) (ls : List (List Char)) :
    sumLens (l :: ls) = l.length + sumLens ls := by
  simp [sumLens]

theorem same_line_div (b z k : Nat) (hb : 0 < b) (h : z % b + k < b) :
    (z + k) / b = z / b ∧ (z + k) % b = z % b + k := by
  have hz := Nat.div_add_mod z b
  have h1 : z + k = b * (z / b) + (z % b + k) := by omega
  rw [h1, Nat.mul_add_div hb, Nat.mul_add_mod]
  rw [Nat.div_eq_of_lt h, Nat.mod_eq_of_lt h]
  omega

theorem posOf_add (P b z k : Nat) (hb : 0 < b) (h : z % b + k < b) :
    posOf P b (z + k) = posOf P b z + k := by
  obtain ⟨h1, h2⟩ := same_line_div b z k hb h
  simp [posOf, h1, h2]
  omega

theorem posOf_next (P b z : Nat) (hb : 0 < b) :
    posOf P b (z + (b - z % b)) = posOf P b z + (b - z % b) + 1 := by
  have hzb : z % b < b := Nat.mod_lt _ hb
  have h1 : z + (b - z % b) = b * (z / b + 1) := by
    have := Nat.div_add_mod z b
    have hm : b * (z / b + 1) = b * (z / b) + b := by ring
    omega
  have h2 : (z + (b - z % b)) / b = z / b + 1 := by
    rw [h1, Nat.mul_div_cancel_left _ hb]
  have h3 : (z + (b - z % b)) % b = 0 := by
    rw [h1, Nat.mul_mod_right]
  have hmul : (z / b + 1) * (b + 1) = (z / b) * (b + 1) + (b + 1) := by ring
  simp only [posOf, h2, h3, hmul]
  omega

theorem readChunksAux_zero (raw : List Char) (b tw : Nat) :
    ∀ fuel pos oil, readChunksAux raw b tw fuel pos 0 oil = [] := by
  intro fuel pos oil
  cases fuel <;> simp [readChunksAux]

theorem readChunksAux_spec (raw : List Char) (P b : Nat) (hb : 0 < b) :
    ∀ fuel needed z, needed ≤ fuel →
      (∀ k, k < needed → posOf P b (z + k) < raw.length) →
      readChunksAux raw b 1 fuel (posOf P b z) needed (z % b) =
        (List.range needed).map (fun k => raw.getD (posOf P b (z + k)) 'A') := by
  intro fuel
  induction fuel with
  | zero =>
    intro needed z hf _
    have : needed = 0 := by omega
    subst this
    simp [readChunksAux]
  | succ fuel ih =>
    intro needed z hf hbound
    by_cases hn : needed = 0
    · subst hn; simp [readChunksAux]
    · have hzb : z % b < b := Nat.mod_lt _ hb
      simp only [readChunksAux]
      rw [if_neg hn]
      by_cases hle : needed ≤ b - z % b
      · -- the whole request fits in the current line
        rw [show min (b - z % b) needed = needed by omega]
        rw [if_neg hn, Nat.sub_self, readChunksAux_zero, List.append_nil]
        rw [slice_eq_map_getD raw (posOf P b z) needed 'A' (by
          have hb1 := hbound (needed - 1) (by omega)
          rw [posOf_add P b z (needed - 1) hb (by omega)] at hb1
          omega)]
        apply List.map_congr_left
        intro k hk
        simp only [List.mem_range] at hk
        rw [posOf_add P b z k hb (by omega)]
      · -- consume the rest of the current line, then recurse at in-line offset 0
        rw [show min (b - z % b) needed = b - z % b by omega]
        rw [if_neg (by omega : ¬ b - z % b = 0)]
        have hz2 : posOf P b z + (b - z % b) + 1 = posOf P b (z + (b - z % b)) := by
          rw [posOf_next P b z hb]
        have h1 : z + (b - z % b) = b * (z / b + 1) := by
          have := Nat.div_add_mod z b
          have hm : b * (z / b + 1) = b * (z / b) + b := by ring
          omega
        have hz2m : (z + (b - z % b)) % b = 0 := by
          rw [h1, Nat.mul_mod_right]
        have hrec := ih (needed - (b - z % b)) (z + (b - z % b)) (by omega) (by
          intro k hk
          have hh := hbound ((b - z % b) + k) (by omega)
          rw [← Nat.add_assoc] at hh
          exact hh)
        rw [hz2m] at hrec
        rw [hz2, hrec]
        rw [slice_eq_map_getD raw (posOf P b z) (b - z % b) 'A' (by
          have hb1 := hbound (b - z % b - 1) (by omega)
          rw [posOf_add P b z (b - z % b - 1) hb (by omega)] at hb1
          omega)]
        have hneed : b - z % b + (needed - (b - z % b)) = needed := by omega
        have hsplit := List.range_add (b - z % b) (needed - (b - z % b))
        rw [hneed] at hsplit
        rw [hsplit, List.map_append, List.map_map]
        congr 1
        · apply List.map_congr_left
          intro k hk
          simp only [List.mem_range] at hk
          rw [posOf_add P b z k hb (by omega)]
        · apply List.map_congr_left
          intro k _
          simp only [Function.comp_apply]
          congr 2
          omega

theorem readChunks_spec (raw : List Char) (P b needed z : Nat) (hb : 0 < b)
    (hbound : ∀ k, k < needed → posOf P b (z + k) < raw.length) :
    readChunks raw (posOf P b z) needed (z % b) b 1 =
      (List.range needed).map (fun k => raw.getD (posOf P b (z + k)) 'A') :=
  readChunksAux_spec raw P b hb needed needed z (Nat.le_refl _) hbound



theorem bodyFits_cons_cons (b : Nat) (x y : List Char) (ys : List (List Char)) :
    bodyFits b (x :: y :: ys) = (decide (x.length = b) && bodyFits b (y :: ys)) := rfl

theorem bodyFits_single (b : Nat) (x : List Char) :
    bodyFits b [x] = decide (x.length ≤ b) := rfl

/-- Byte position and content of base `i` inside a run of content lines
whose interior lines have exactly `b` bases: the seek formula lands on
the right character of the flattened record. -/
theorem bodyPos (b : Nat) (hb : 0 < b) (d : Char) :
    ∀ (body : List (List Char)) (i : Nat), bodyFits b body = true → i < sumLens body →
      (i / b) * (b + 1) + i % b < bytesL body ∧
      (rawChars body).getD ((i / b) * (b + 1) + i % b) d = (body.flatten).getD i d := by
  intro body
  induction body with
  | nil =>
    intro i _ h
    simp [sumLens] at h
  | cons x bs ih =>
    intro i hfits hi
    by_cases hib : i < b
    · have hx : i < x.length := by
        cases bs with
        | nil =>
          rw [bodyFits_single] at hfits
          rw [sumLens_cons] at hi
          simp [sumLens] at hi
          omega
        | cons y ys =>
          rw [bodyFits_cons_cons] at hfits
          simp only [Bool.and_eq_true, decide_eq_true_eq] at hfits
          omega
      rw [Nat.div_eq_of_lt hib, Nat.mod_eq_of_lt hib]
      simp only [Nat.zero_mul, Nat.zero_add]
      constructor
      · rw [bytesL_cons]; omega
      · rw [rawChars_cons, List.flatten_cons]
        rw [getD_append_left (by simp; omega), getD_append_left hx,
          getD_append_left hx]
    · push_neg at hib
      cases bs with
      | nil =>
        exfalso
        rw [bodyFits_single] at hfits
        simp only [decide_eq_true_eq] at hfits
        rw [sumLens_cons] at hi
        simp [sumLens] at hi
        omega
      | cons y ys =>
        rw [bodyFits_cons_cons] at hfits
        simp only [Bool.and_eq_true, decide_eq_true_eq] at hfits
        obtain ⟨hxb, hfits2⟩ := hfits
        obtain ⟨i2, rfl⟩ : ∃ i2, i = b + i2 := ⟨i - b, by omega⟩
        have hdiv : (b + i2) / b = i2 / b + 1 := by
          rw [Nat.add_comm]
          exact Nat.add_div_right _ hb
        have hmod : (b + i2) % b = i2 % b := Nat.add_mod_left b i2
        have hrec := ih i2 hfits2 (by
          rw [sumLens_cons] at hi
          omega)
        rw [hdiv, hmod]
        have hpos : (i2 / b + 1) * (b + 1) + i2 % b = (b + 1) + ((i2 / b) * (b + 1) + i2 % b) := by
          ring
        rw [hpos]
        constructor
        · rw [bytesL_cons]
          omega
        · rw [rawChars_cons, List.flatten_cons]
          have hlen : (x ++ ['\n']).length = b + 1 := by simp [hxb]
          rw [← hlen, getD_append_right, hlen]
          rw [show b + i2 = x.length + i2 by omega, getD_append_right]
          exact hrec.2


theorem keysOf_cons (p : List Char × Entry) (acc : Index) :
    keysOf (p :: acc) = p.1 :: keysOf acc := rfl

theorem keysOf_append (a b : Index) : keysOf (a ++ b) = keysOf a ++ keysOf b := by
  simp [keysOf]

theorem lookup_none_iff : ∀ (acc : Index) (n : List Char),
    lookupIndex acc n = none ↔ n ∉ keysOf acc
  | [], n => by simp [lookupIndex, keysOf]
  | (m, e) :: rest, n => by
    rw [keysOf_cons, List.mem_cons]
    by_cases hm : m = n
    · subst hm
      rw [lookupIndex, if_pos rfl]
      constructor
      · intro h; cases h
      · intro h; exact absurd (Or.inl rfl) h
    · rw [lookupIndex, if_neg hm, lookup_none_iff rest n]
      constructor
      · intro h hc
        rcases hc with h1 | h2
        · exact hm h1.symm
        · exact h h2
      · intro h h2
        exact h (Or.inr h2)

theorem lookup_some_of_mem_nodup : ∀ (idx : Index) (n : List Char) (e : Entry),
    (keysOf idx).Nodup → (n, e) ∈ idx → lookupIndex idx n = some e
  | [], n, e => by intro _ h; cases h
  | (m, e2) :: rest, n, e => by
    intro hnd hmem
    rw [keysOf_cons] at hnd
    rw [List.nodup_cons] at hnd
    rw [List.mem_cons] at hmem
    by_cases hm : m = n
    · subst hm
      rw [lookupIndex, if_pos rfl]
      rcases hmem with h1 | h2
      · injection h1 with _ h; rw [h]
      · exfalso
        exact hnd.1 (by simp only [keysOf, List.mem_map]; exact ⟨(m, e), h2, rfl⟩)
    · rw [lookupIndex, if_neg hm]
      rcases hmem with h1 | h2
      · injection h1 with h _; exact absurd h.symm hm
      · exact lookup_some_of_mem_nodup rest n e hnd.2 h2

theorem insertEntry_ok {acc : Index} {c : CurRecord} {acc2 : Index}
    (h : insertEntry acc c = .ok acc2) :
    acc2 = acc ++ [(c.name, mkEntry c)] ∧ c.name ∉ keysOf acc := by
  unfold insertEntry at h
  by_cases hd : (lookupIndex acc c.name).isSome
  · rw [if_pos hd] at h; cases h
  · rw [if_neg hd] at h
    injection h with h
    refine ⟨h.symm, ?_⟩
    rw [← lookup_none_iff]
    rcases ho : lookupIndex acc c.name with _ | e
    · rfl
    · exact absurd (by rw [ho]; rfl) hd

theorem finalize_keys {acc : Index} {cur : Option CurRecord} {acc2 : Index}
    (h : finalize acc cur = .ok acc2) :
    keysOf acc2 = keysOf acc ++ curNames cur := by
  cases cur with
  | none =>
    injection h with h
    rw [← h, curNames, List.append_nil]
  | some c =>
    obtain ⟨h1, _⟩ := insertEntry_ok h
    rw [h1, keysOf_append, curNames, keysOf]
    rfl

theorem finalize_sub {acc : Index} {cur : Option CurRecord} {acc2 : Index}
    (h : finalize acc cur = .ok acc2) : ∀ x ∈ acc, x ∈ acc2 := by
  cases cur with
  | none => injection h with h; rw [← h]; exact fun x hx => hx
  | some c =>
    obtain ⟨h1, _⟩ := insertEntry_ok h
    rw [h1]
    exact fun x hx => List.mem_append_left _ hx

theorem finalize_nodup {acc : Index} {cur : Option CurRecord} {acc2 : Index}
    (h : finalize acc cur = .ok acc2) (hnd : (keysOf acc).Nodup) :
    (keysOf acc2).Nodup := by
  cases cur with
  | none => injection h with h; rw [← h]; exact hnd
  | some c =>
    obtain ⟨h1, h2⟩ := insertEntry_ok h
    rw [h1, keysOf_append]
    rw [List.nodup_append]
    exact ⟨hnd, List.nodup_singleton _, by
      intro a ha hb
      simp only [keysOf, List.map_cons, List.map_nil, List.mem_singleton] at hb
      subst hb
      exact h2 ha⟩

theorem feedLine_fields {c : CurRecord} {l : List Char} {c2 : CurRecord}
    (h : feedLine c l = .ok c2) :
    c2.name = c.name ∧ c2.description = c.description ∧ c2.offset = c.offset := by
  unfold feedLine at h
  split_ifs at h with h1 h2 h3 h4 <;> cases h <;> exact ⟨rfl, rfl, rfl⟩

theorem go_acc_sub : ∀ (rest : List (List Char)) (cursor : Nat) (acc : Index)
    (cur : Option CurRecord) (idx : Index),
    go rest cursor acc cur = .ok idx → ∀ x ∈ acc, x ∈ idx
  | [], cursor, acc, cur, idx => by
    intro h
    exact finalize_sub h
  | l :: rest, cursor, acc, cur, idx => by
    intro h
    by_cases hh : isHeaderB l
    · simp only [go, if_pos hh] at h
      cases hf : finalize acc cur with
      | error e => rw [hf] at h; cases h
      | ok acc2 =>
        rw [hf] at h
        intro x hx
        exact go_acc_sub rest _ acc2 _ idx h x (finalize_sub hf x hx)
    · cases cur with
      | none => simp only [go, if_neg hh] at h; cases h
      | some c =>
        simp only [go, if_neg hh] at h
        cases hf : feedLine c l with
        | error e => rw [hf] at h; cases h
        | ok c2 =>
          rw [hf] at h
          exact go_acc_sub rest _ acc _ idx h

theorem go_keys : ∀ (rest : List (List Char)) (cursor : Nat) (acc : Index)
    (cur : Option CurRecord) (idx : Index),
    go rest cursor acc cur = .ok idx →
    keysOf idx = keysOf acc ++ curNames cur ++ headerToks rest
  | [], cursor, acc, cur, idx => by
    intro h
    rw [go] at h
    rw [finalize_keys h, headerToks]
    simp
  | l :: rest, cursor, acc, cur, idx => by
    intro h
    by_cases hh : isHeaderB l
    · simp only [go, if_pos hh] at h
      cases hf : finalize acc cur with
      | error e => rw [hf] at h; cases h
      | ok acc2 =>
        rw [hf] at h
        have hk := go_keys rest _ acc2 _ idx h
        rw [hk, finalize_keys hf]
        have ht : headerToks (l :: rest) = nameTok l :: headerToks rest := by
          rw [headerToks, headerToks, List.filter_cons, if_pos hh, List.map_cons]
        rw [ht]
        simp only [curNames, freshCur]
        simp [List.append_assoc]
    · cases cur with
      | none => simp only [go, if_neg hh] at h; cases h
      | some c =>
        simp only [go, if_neg hh] at h
        cases hf : feedLine c l with
        | error e => rw [hf] at h; cases h
        | ok c2 =>
          rw [hf] at h
          have hk := go_keys rest _ acc _ idx h
          rw [hk]
          have ht : headerToks (l :: rest) = headerToks rest := by
            rw [headerToks, headerToks, List.filter_cons, if_neg (by simp [hh])]
          rw [ht]
          have hname := (feedLine_fields hf).1
          simp [curNames, hname]


theorem go_nodup : ∀ (rest : List (List Char)) (cursor : Nat) (acc : Index)
    (cur : Option CurRecord) (idx : Index),
    go rest cursor acc cur = .ok idx → (keysOf acc).Nodup → (keysOf idx).Nodup
  | [], cursor, acc, cur, idx => by
    intro h hnd
    exact finalize_nodup h hnd
  | l :: rest, cursor, acc, cur, idx => by
    intro h hnd
    by_cases hh : isHeaderB l
    · simp only [go, if_pos hh] at h
      cases hf : finalize acc cur with
      | error e => rw [hf] at h; cases h
      | ok acc2 =>
        rw [hf] at h
        exact go_nodup rest _ acc2 _ idx h (finalize_nodup hf hnd)
    · cases cur with
      | none => simp only [go, if_neg hh] at h; cases h
      | some c =>
        simp only [go, if_neg hh] at h
        cases hf : feedLine c l with
        | error e => rw [hf] at h; cases h
        | ok c2 =>
          rw [hf] at h
          exact go_nodup rest _ acc _ idx h hnd

theorem go_error_class : ∀ (rest : List (List Char)) (cursor : Nat) (acc : Index)
    (cur : Option CurRecord) (err : FastaError),
    go rest cursor acc cur = .error err →
    err = .FormatError ∨ err = .DuplicateNameError
  | [], cursor, acc, cur, err => by
    intro h
    rw [go] at h
    cases cur with
    | none => cases h
    | some c =>
      rw [finalize] at h
      unfold insertEntry at h
      by_cases hd : (lookupIndex acc c.name).isSome
      · rw [if_pos hd] at h
        injection h with h
        exact Or.inr h.symm
      · rw [if_neg hd] at h; cases h
  | l :: rest, cursor, acc, cur, err => by
    intro h
    by_cases hh : isHeaderB l
    · simp only [go, if_pos hh] at h
      cases hf : finalize acc cur with
      | error e =>
        rw [hf] at h
        injection h with h
        subst h
        cases cur with
        | none => rw [finalize] at hf; cases hf
        | some c =>
          rw [finalize] at hf
          unfold insertEntry at hf
          by_cases hd : (lookupIndex acc c.name).isSome
          · rw [if_pos hd] at hf
            injection hf with hf
            exact Or.inr hf.symm
          · rw [if_neg hd] at hf; cases hf
      | ok acc2 =>
        rw [hf] at h
        exact go_error_class rest _ acc2 _ err h
    · cases cur with
      | none =>
        simp only [go, if_neg hh] at h
        injection h with h
        exact Or.inl h.symm
      | some c =>
        simp only [go, if_neg hh] at h
        cases hf : feedLine c l with
        | error e =>
          rw [hf] at h
          injection h with h
          subst h
          unfold feedLine at hf
          split_ifs at hf <;> injection hf with hf <;> exact Or.inl hf.symm
        | ok c2 =>
          rw [hf] at h
          exact go_error_class rest _ acc _ err h

theorem feed_closed : ∀ (body : List (List Char)) (c c2 : CurRecord),
    c.closed = true → feedCur c body = .ok c2 → body = [] ∧ c2 = c
  | [], c, c2 => by
    intro _ h
    injection h with h
    exact ⟨rfl, h.symm⟩
  | l :: bs, c, c2 => by
    intro hc h
    rw [feedCur] at h
    rw [feedLine, if_pos hc] at h
    cases h



theorem feed_run : ∀ (body : List (List Char)) (c c2 : CurRecord),
    c.closed = false → c.nlines ≠ 0 → feedCur c body = .ok c2 →
    bodyFits c.line_blen body = true ∧
    c2.name = c.name ∧ c2.description = c.description ∧ c2.offset = c.offset ∧
    c2.line_blen = c.line_blen ∧ c2.line_len = c.line_len ∧
    c2.length = c.length + sumLens body
  | [], c, c2 => by
    intro _ _ h
    injection h with h
    subst h
    exact ⟨rfl, rfl, rfl, rfl, rfl, rfl, by simp [sumLens]⟩
  | l :: bs, c, c2 => by
    intro hcl hnl h
    rw [feedCur, feedLine, if_neg (by simp [hcl]), if_neg hnl] at h
    by_cases he : l.length = c.line_blen
    · rw [if_pos he] at h
      have hrec := feed_run bs
        { c with length := c.length + l.length, nlines := c.nlines + 1 } c2
        (by simpa using hcl) (by simp) h
      obtain ⟨hfits, hname, hdesc, hoff, hblen, hllen, hlen⟩ := hrec
      refine ⟨?_, hname, hdesc, hoff, hblen, hllen, ?_⟩
      · cases bs with
        | nil => rw [bodyFits_single]; simp [he]
        | cons y ys =>
          rw [bodyFits_cons_cons]
          simp only [Bool.and_eq_true, decide_eq_true_eq]
          exact ⟨he, hfits⟩
      · rw [hlen, sumLens_cons]
        simp
        omega
    · rw [if_neg he] at h
      by_cases hlt : l.length < c.line_blen
      · rw [if_pos hlt] at h
        obtain ⟨hbs, hc2⟩ := feed_closed bs _ c2 rfl h
        subst hbs
        subst hc2
        refine ⟨by rw [bodyFits_single]; simp; omega, rfl, rfl, rfl, rfl, rfl, ?_⟩
        rw [sumLens_cons]
        simp [sumLens]
      · rw [if_neg hlt] at h
        cases h

theorem feed_fresh (hdr : List Char) (off : Nat) :
    ∀ (body : List (List Char)) (c2 : CurRecord),
    feedCur (freshCur hdr off) body = .ok c2 →
    c2.name = nameTok hdr ∧ c2.description = descOf hdr ∧ c2.offset = off ∧
    c2.length = sumLens body ∧
    (body = [] → c2.line_blen = 0 ∧ c2.line_len = 0) ∧
    (body ≠ [] → c2.line_blen = (body.headD []).length ∧
      c2.line_len = c2.line_blen + 1 ∧ bodyFits c2.line_blen body = true)
  | [], c2 => fun h => by
    injection h with h
    subst h
    exact ⟨rfl, rfl, rfl, by simp [sumLens, freshCur], fun _ => ⟨rfl, rfl⟩,
      fun hne => absurd rfl hne⟩
  | l :: bs, c2 => fun h => by
    rw [feedCur] at h
    have hfl : feedLine (freshCur hdr off) l =
        .ok (⟨nameTok hdr, descOf hdr, off, l.length, l.length, l.length + 1, 1, false⟩ :
          CurRecord) := rfl
    rw [hfl] at h
    have hrec := feed_run bs
      (⟨nameTok hdr, descOf hdr, off, l.length, l.length, l.length + 1, 1, false⟩ : CurRecord)
      c2 rfl (by simp) h
    obtain ⟨hfits, hname, hdesc, hoff, hblen, hllen, hlen⟩ := hrec
    refine ⟨by simp [hname], by simp [hdesc], by simp [hoff], ?_, ?_, ?_⟩
    · rw [hlen, sumLens_cons]
    · intro hc; cases hc
    · intro _
      refine ⟨by simp [hblen], by simp [hllen, hblen], ?_⟩
      rw [hblen]
      show bodyFits l.length (l :: bs) = true
      cases bs with
      | nil => rw [bodyFits_single]; simp
      | cons y ys =>
        have hfits2 : bodyFits l.length (y :: ys) = true := hfits
        rw [bodyFits_cons_cons, hfits2]
        simp

theorem feed_error : ∀ (body : List (List Char)) (c : CurRecord) (err : FastaError),
    feedCur c body = .error err → err = .FormatError
  | [], c, err => by intro h; cases h
  | l :: bs, c, err => by
    intro h
    rw [feedCur] at h
    cases hf : feedLine c l with
    | error e =>
      rw [hf] at h
      injection h with h
      subst h
      unfold feedLine at hf
      split_ifs at hf <;> injection hf with hf <;> exact hf.symm
    | ok c2 =>
      rw [hf] at h
      exact feed_error bs c2 err h

theorem go_content_err : ∀ (body post : List (List Char)) (cursor : Nat) (acc : Index)
    (c : CurRecord) (err : FastaError),
    (∀ l ∈ body, isHeaderB l = false) → feedCur c body = .error err →
    go (body ++ post) cursor acc (some c) = .error err
  | [], post, cursor, acc, c, err => by intro _ h; cases h
  | l :: bs, post, cursor, acc, c, err => by
    intro hb h
    rw [feedCur] at h
    have hl : isHeaderB l = false := hb l (List.mem_cons_self l bs)
    have hl2 : ¬ isHeaderB l = true := by simp [hl]
    rw [List.cons_append]
    simp only [go, if_neg hl2]
    cases hf : feedLine c l with
    | error e =>
      rw [hf] at h
      injection h with h
      subst h
      rfl
    | ok c2 =>
      rw [hf] at h
      exact go_content_err bs post _ acc c2 err
        (fun x hx => hb x (List.mem_cons_of_mem _ hx)) h

theorem go_content_ok : ∀ (body post : List (List Char)) (cursor : Nat) (acc : Index)
    (c c2 : CurRecord),
    (∀ l ∈ body, isHeaderB l = false) → feedCur c body = .ok c2 →
    go (body ++ post) cursor acc (some c) = go post (cursor + bytesL body) acc (some c2)
  | [], post, cursor, acc, c, c2 => by
    intro _ h
    injection h with h
    subst h
    rw [List.nil_append]
    have hz : cursor + bytesL [] = cursor := by
      simp [bytesL]
    rw [hz]
  | l :: bs, post, cursor, acc, c, c2 => by
    intro hb h
    rw [feedCur] at h
    have hl : isHeaderB l = false := hb l (List.mem_cons_self l bs)
    have hl2 : ¬ isHeaderB l = true := by simp [hl]
    rw [List.cons_append]
    simp only [go, if_neg hl2]
    cases hf : feedLine c l with
    | error e => rw [hf] at h; cases h
    | ok c1 =>
      rw [hf] at h
      have hrec := go_content_ok bs post (cursor + l.length + 1) acc c1 c2
        (fun x hx => hb x (List.mem_cons_of_mem _ hx)) h
      have harith : cursor + l.length + 1 + bytesL bs = cursor + bytesL (l :: bs) := by
        rw [bytesL_cons]
        omega
      show go (bs ++ post) (cursor + l.length + 1) acc (some c1) =
        go post (cursor + bytesL (l :: bs)) acc (some c2)
      rw [hrec, harith]

theorem go_reach : ∀ (pre rest : List (List Char)) (cursor : Nat) (acc : Index)
    (cur : Option CurRecord) (idx : Index),
    go (pre ++ rest) cursor acc cur = .ok idx →
    ∃ acc2 cur2, go rest (cursor + bytesL pre) acc2 cur2 = .ok idx
  | [], rest, cursor, acc, cur, idx => by
    intro h
    refine ⟨acc, cur, ?_⟩
    have hz : cursor + bytesL [] = cursor := by
      simp [bytesL]
    rw [hz]
    exact h
  | l :: pre, rest, cursor, acc, cur, idx => by
    intro h
    rw [List.cons_append] at h
    have harith : cursor + bytesL (l :: pre) = cursor + l.length + 1 + bytesL pre := by
      rw [bytesL_cons]
      omega
    rw [harith]
    by_cases hh : isHeaderB l
    · simp only [go, if_pos hh] at h
      cases hf : finalize acc cur with
      | error e => rw [hf] at h; cases h
      | ok acc2 =>
        rw [hf] at h
        exact go_reach pre rest _ acc2 _ idx h
    · cases cur with
      | none => simp only [go, if_neg hh] at h; cases h
      | some c =>
        simp only [go, if_neg hh] at h
        cases hf : feedLine c l with
        | error e => rw [hf] at h; cases h
        | ok c2 =>
          rw [hf] at h
          exact go_reach pre rest _ acc _ idx h



theorem dropWhile_head_false {α : Type} (p : α → Bool) :
    ∀ (l : List α) (x : α) (xs : List α), l.dropWhile p = x :: xs → p x = false
  | [], x, xs => by intro h; cases h
  | a :: l, x, xs => by
    intro h
    rw [List.dropWhile_cons] at h
    by_cases hp : p a = true
    · rw [if_pos hp] at h
      exact dropWhile_head_false p l x xs h
    · rw [if_neg hp] at h
      injection h with h1 _
      subst h1
      simp at hp
      exact hp

/-- The central characterization of a built index: every maximal record
decomposition of the file is reflected by a looked-up entry with the
offset, length and line-layout the spec prescribes. -/
theorem build_record (lines : List (List Char)) (idx : Index)
    (pre : List (List Char)) (hdr : List Char) (body post : List (List Char))
    (hb : build_index lines = .ok idx)
    (hsplit : lines = pre ++ hdr :: (body ++ post))
    (hhdr : isHeaderB hdr = true)
    (hbody : ∀ l ∈ body, isHeaderB l = false)
    (hpost : post = [] ∨ isHeaderB (post.headD []) = true) :
    ∃ e, lookupIndex idx (nameTok hdr) = some e ∧
      e.name = nameTok hdr ∧ e.description = descOf hdr ∧
      e.offset = bytesL pre + hdr.length + 1 ∧
      e.length = sumLens body ∧
      (body = [] → e.line_blen = 0 ∧ e.line_len = 0) ∧
      (body ≠ [] → e.line_blen = (body.headD []).length ∧
        e.line_len = e.line_blen + 1 ∧ bodyFits e.line_blen body = true) := by
  rw [build_index] at hb
  rw [hsplit] at hb
  rw [if_neg (by simp)] at hb
  have hnd : (keysOf idx).Nodup :=
    go_nodup _ 0 [] none idx hb (by simp [keysOf])
  obtain ⟨acc2, cur2, h2⟩ := go_reach pre (hdr :: (body ++ post)) 0 [] none idx hb
  rw [show (0 : Nat) + bytesL pre = bytesL pre by omega] at h2
  simp only [go, if_pos hhdr] at h2
  cases hfin : finalize acc2 cur2 with
  | error e => rw [hfin] at h2; cases h2
  | ok acc3 =>
    rw [hfin] at h2
    replace h2 : go (body ++ post) (bytesL pre + hdr.length + 1) acc3
        (some (freshCur hdr (bytesL pre + hdr.length + 1))) = .ok idx := h2
    cases hfc : feedCur (freshCur hdr (bytesL pre + hdr.length + 1)) body with
    | error e =>
      rw [go_content_err body post _ acc3 _ e hbody hfc] at h2
      cases h2
    | ok c2 =>
      rw [go_content_ok body post _ acc3 _ c2 hbody hfc] at h2
      obtain ⟨hname, hdesc, hoff, hlen, hempty, hne⟩ :=
        feed_fresh hdr (bytesL pre + hdr.length + 1) body c2 hfc
      have hmem : (c2.name, mkEntry c2) ∈ idx := by
        rcases hpost with hp | hp
        · subst hp
          rw [go] at h2
          rw [finalize] at h2
          obtain ⟨hidx, _⟩ := insertEntry_ok h2
          rw [hidx]
          exact List.mem_append_right _ (List.mem_singleton_self _)
        · cases post with
          | nil => exact absurd hp (by decide)
          | cons p t =>
            simp only [List.headD_cons] at hp
            simp only [go, if_pos hp] at h2
            cases hfin2 : finalize acc3 (some c2) with
            | error e => rw [hfin2] at h2; cases h2
            | ok acc4 =>
              rw [hfin2] at h2
              rw [finalize] at hfin2
              obtain ⟨hacc4, _⟩ := insertEntry_ok hfin2
              refine go_acc_sub t _ acc4 _ idx h2 _ ?_
              rw [hacc4]
              exact List.mem_append_right _ (List.mem_singleton_self _)
      rw [hname] at hmem
      refine ⟨mkEntry c2, lookup_some_of_mem_nodup idx (nameTok hdr) (mkEntry c2) hnd hmem,
        ?_, ?_, ?_, ?_, ?_, ?_⟩
      · exact hname
      · exact hdesc
      · exact hoff
      · exact hlen
      · intro h
        obtain ⟨h1, h3⟩ := hempty h
        exact ⟨h1, h3⟩
      · intro h
        obtain ⟨h1, h3, h4⟩ := hne h
        exact ⟨h1, h3, h4⟩



theorem lookup_mem_keys {idx : Index} {name : List Char} {e : Entry}
    (h : lookupIndex idx name = some e) : name ∈ keysOf idx := by
  by_contra hc
  rw [← lookup_none_iff] at hc
  rw [h] at hc
  cases hc

/-- Every name the built index resolves comes from a header line of the
file, with a maximal run of content lines after it. -/
theorem entry_decomp (lines : List (List Char)) (idx : Index) (name : List Char) (e : Entry)
    (hb : build_index lines = .ok idx)
    (hl : lookupIndex idx name = some e) :
    ∃ pre hdr body post, lines = pre ++ hdr :: (body ++ post) ∧
      isHeaderB hdr = true ∧ nameTok hdr = name ∧
      (∀ l ∈ body, isHeaderB l = false) ∧
      (post = [] ∨ isHeaderB (post.headD []) = true) := by
  have hmem : name ∈ keysOf idx := lookup_mem_keys hl
  have hb2 : go lines 0 [] none = .ok idx := by
    rw [build_index] at hb
    by_cases he : lines.isEmpty
    · rw [if_pos he] at hb; cases hb
    · rw [if_neg he] at hb; exact hb
  have hkeys := go_keys lines 0 [] none idx hb2
  rw [hkeys] at hmem
  simp only [keysOf, List.map_nil, curNames, List.nil_append] at hmem
  rw [headerToks] at hmem
  rw [List.mem_map] at hmem
  obtain ⟨hdr, hmem2, hname⟩ := hmem
  rw [List.mem_filter] at hmem2
  obtain ⟨hmem3, hhdr⟩ := hmem2
  obtain ⟨pre, rest, hsplit⟩ := List.append_of_mem hmem3
  refine ⟨pre, hdr, rest.takeWhile (fun x => !isHeaderB x),
    rest.dropWhile (fun x => !isHeaderB x), ?_, hhdr, hname, ?_, ?_⟩
  · rw [List.takeWhile_append_dropWhile, hsplit]
  · intro l hlm
    have := List.mem_takeWhile_imp hlm
    simpa using this
  · cases hd : rest.dropWhile (fun x => !isHeaderB x) with
    | nil => exact Or.inl rfl
    | cons p t =>
      right
      have := dropWhile_head_false (fun x => !isHeaderB x) rest p t hd
      simp only [List.headD_cons]
      simpa using this



theorem bodyFits_zero : ∀ (body : List (List Char)), bodyFits 0 body = true → sumLens body = 0
  | [] => by intro _; simp [sumLens]
  | [l] => by
    intro h
    rw [bodyFits_single] at h
    simp only [decide_eq_true_eq, Nat.le_zero] at h
    simp [sumLens, h]
  | l :: l2 :: rest => by
    intro h
    rw [bodyFits_cons_cons] at h
    simp only [Bool.and_eq_true, decide_eq_true_eq] at h
    obtain ⟨h1, h2⟩ := h
    rw [sumLens_cons, h1, bodyFits_zero (l2 :: rest) h2]

/-- On a valid request against a built index, the fetcher returns exactly
the uppercased slice of the record's concatenated content lines. -/
theorem fetch_ok_slice (lines : List (List Char)) (idx : Index) (name : List Char)
    (e : Entry) (start stop : Int)
    (hb : build_index lines = .ok idx)
    (hl : lookupIndex idx name = some e)
    (h1 : 1 ≤ start) (h2 : start ≤ stop) (h3 : stop ≤ (e.length : Int)) :
    ∃ pre hdr body post,
      lines = pre ++ hdr :: (body ++ post) ∧ isHeaderB hdr = true ∧ nameTok hdr = name ∧
      (∀ l ∈ body, isHeaderB l = false) ∧ (post = [] ∨ isHeaderB (post.headD []) = true) ∧
      sumLens body = e.length ∧
      fetch_subseq (rawChars lines) idx name start stop =
        .ok ((((body.flatten).drop (start - 1).toNat).take (stop - start + 1).toNat).map upChar) := by
  obtain ⟨pre, hdr, body, post, hsplit, hhdr, hname, hbody, hpost⟩ :=
    entry_decomp lines idx name e hb hl
  obtain ⟨e2, hlook2, hename, hedesc, heoff, helen, hempty, hnonempty⟩ :=
    build_record lines idx pre hdr body post hb hsplit hhdr hbody hpost
  rw [hname, hl] at hlook2
  injection hlook2 with he2
  subst he2
  have hbne : body ≠ [] := by
    intro hcon
    subst hcon
    rw [show sumLens ([] : List (List Char)) = 0 from rfl] at helen
    omega
  obtain ⟨hblen, hllen, hfits⟩ := hnonempty hbne
  have hbpos : 0 < e.line_blen := by
    by_contra hc
    push_neg at hc
    have hz0 : e.line_blen = 0 := by omega
    rw [hz0] at hfits
    have := bodyFits_zero body hfits
    omega
  have hzn : (start - 1).toNat + (stop - start + 1).toNat ≤ e.length := by omega
  have hraw : rawChars lines =
      (rawChars pre ++ (hdr ++ ['\n'])) ++ (rawChars body ++ rawChars post) := by
    rw [hsplit, rawChars_append, rawChars_cons, rawChars_append]
    simp [List.append_assoc]
  have hAlen : (rawChars pre ++ (hdr ++ ['\n'])).length = e.offset := by
    rw [List.length_append, length_rawChars, heoff]
    simp only [List.length_append, List.length_cons, List.length_nil]
    omega
  have hbase : ∀ k, k < (stop - start + 1).toNat →
      posOf e.offset e.line_blen ((start - 1).toNat + k) < (rawChars lines).length ∧
      (rawChars lines).getD (posOf e.offset e.line_blen ((start - 1).toNat + k)) 'A' =
        (body.flatten).getD ((start - 1).toNat + k) 'A' := by
    intro k hk
    have hj : (start - 1).toNat + k < sumLens body := by
      rw [← helen]
      omega
    obtain ⟨hlt, hval⟩ :=
      bodyPos e.line_blen hbpos 'A' body ((start - 1).toNat + k) hfits hj
    have hposOf : posOf e.offset e.line_blen ((start - 1).toNat + k) =
        (rawChars pre ++ (hdr ++ ['\n'])).length +
          ((((start - 1).toNat + k) / e.line_blen) * (e.line_blen + 1) +
            ((start - 1).toNat + k) % e.line_blen) := by
      rw [hAlen, posOf]
      omega
    constructor
    · have h4 : (rawChars body).length = bytesL body := length_rawChars body
      have h5 : (rawChars lines).length =
          (rawChars pre ++ (hdr ++ ['\n'])).length +
            ((rawChars body).length + (rawChars post).length) := by
        rw [hraw]
        simp only [List.length_append, List.length_cons, List.length_nil]
      rw [h5, hposOf]
      omega
    · rw [hraw, hposOf, getD_append_right]
      rw [getD_append_left (by rw [length_rawChars]; exact hlt)]
      exact hval
  refine ⟨pre, hdr, body, post, hsplit, hhdr, hname, hbody, hpost, helen.symm, ?_⟩
  simp only [fetch_subseq, hl]
  rw [if_neg (by omega)]
  congr 1
  rw [hllen]
  rw [show e.line_blen + 1 - e.line_blen = 1 by omega]
  have hpos_eq : e.offset + (start - 1).toNat / e.line_blen * (e.line_blen + 1) +
      (start - 1).toNat % e.line_blen = posOf e.offset e.line_blen (start - 1).toNat := rfl
  rw [hpos_eq]
  rw [readChunks_spec (rawChars lines) e.offset e.line_blen _ _ hbpos
    (fun k hk => (hbase k hk).1)]
  rw [slice_eq_map_getD (body.flatten) (start - 1).toNat (stop - start + 1).toNat 'A' (by
    rw [List.length_flatten]
    have hfl : (List.map List.length body).sum = sumLens body := rfl
    rw [hfl, ← helen]
    omega)]
  congr 1
  apply List.map_congr_left
  intro k hk
  rw [List.mem_range] at hk
  exact (hbase k hk).2



theorem toNat_ofNat_small (n : Nat) (h : n < 55296) : (Char.ofNat n).toNat = n := by
  have hv : Nat.isValidChar n := Or.inl h
  simp only [Char.ofNat, dif_pos hv, Char.ofNatAux, Char.toNat]
  simp [UInt32.toNat, UInt32.ofNatCore]

theorem upChar_not_lower (c : Char) : isLowerAlpha (upChar c) = false := by
  unfold upChar
  by_cases h : isLowerAlpha c = true
  · rw [if_pos h]
    unfold isLowerAlpha at h
    simp only [Bool.and_eq_true, decide_eq_true_eq] at h
    obtain ⟨h1, h2⟩ := h
    have hv : (Char.ofNat (c.toNat - 32)).toNat = c.toNat - 32 :=
      toNat_ofNat_small _ (by omega)
    have hno : ¬ 97 ≤ c.toNat - 32 := by omega
    simp [isLowerAlpha, hv, hno]
  · rw [if_neg h]
    simpa using h

theorem upChar_newline (c : Char) (h : upChar c = '\n') : c = '\n' := by
  unfold upChar at h
  by_cases hl : isLowerAlpha c = true
  · rw [if_pos hl] at h
    exfalso
    unfold isLowerAlpha at hl
    simp only [Bool.and_eq_true, decide_eq_true_eq] at hl
    have hv : (Char.ofNat (c.toNat - 32)).toNat = c.toNat - 32 :=
      toNat_ofNat_small _ (by omega)
    have h10 : ('\n' : Char).toNat = 10 := rfl
    have hcong := congrArg Char.toNat h
    rw [hv, h10] at hcong
    omega
  · rw [if_neg hl] at h
    exact h

theorem bodyFits_interior (b : Nat) :
    ∀ (body : List (List Char)), bodyFits b body = true →
      ∀ i, i + 1 < body.length → (body.getD i []).length = b
  | [] => by intro _ i hi; simp at hi
  | [l] => by
    intro _ i hi
    simp only [List.length_cons, List.length_nil] at hi
    omega
  | l :: l2 :: rest => by
    intro hfits i hi
    rw [bodyFits_cons_cons] at hfits
    simp only [Bool.and_eq_true, decide_eq_true_eq] at hfits
    obtain ⟨h1, h2⟩ := hfits
    cases i with
    | zero => simpa using h1
    | succ i2 =>
      have := bodyFits_interior b (l2 :: rest) h2 i2 (by
        simp only [List.length_cons] at hi ⊢
        omega)
      simpa using this

theorem takeWhile_append_all {α : Type} (p : α → Bool) :
    ∀ (xs ys : List α), (∀ x ∈ xs, p x = true) →
      (xs ++ ys).takeWhile p = xs ++ ys.takeWhile p
  | [], ys => by intro _; simp
  | x :: xs, ys => by
    intro h
    rw [List.cons_append, List.takeWhile_cons, if_pos (h x (List.mem_cons_self x xs))]
    rw [takeWhile_append_all p xs ys (fun a ha => h a (List.mem_cons_of_mem _ ha)),
      List.cons_append]

theorem dropWhile_append_all {α : Type} (p : α → Bool) :
    ∀ (xs ys : List α), (∀ x ∈ xs, p x = true) →
      (xs ++ ys).dropWhile p = ys.dropWhile p
  | [], ys => by intro _; simp
  | x :: xs, ys => by
    intro h
    rw [List.cons_append, List.dropWhile_cons, if_pos (h x (List.mem_cons_self x xs))]
    exact dropWhile_append_all p xs ys (fun a ha => h a (List.mem_cons_of_mem _ ha))

theorem build_error_class (lines : List (List Char)) (err : FastaError)
    (h : build_index lines = .error err) :
    err = .FormatError ∨ err = .DuplicateNameError := by
  rw [build_index] at h
  by_cases he : lines.isEmpty
  · rw [if_pos he] at h
    injection h with h
    exact Or.inl h.symm
  · rw [if_neg he] at h
    exact go_error_class lines 0 [] none err h



/-- Package of `entry_decomp` and `build_record`: the looked-up entry's
fields match the maximal record decomposition of its header. -/
theorem record_of_lookup (lines : List (List Char)) (idx : Index) (name : List Char)
    (e : Entry)
    (hb : build_index lines = .ok idx)
    (hl : lookupIndex idx name = some e) :
    ∃ pre hdr body post,
      lines = pre ++ hdr :: (body ++ post) ∧ isHeaderB hdr = true ∧ nameTok hdr = name ∧
      (∀ l ∈ body, isHeaderB l = false) ∧ (post = [] ∨ isHeaderB (post.headD []) = true) ∧
      e.name = nameTok hdr ∧ e.description = descOf hdr ∧
      e.offset = bytesL pre + hdr.length + 1 ∧ e.length = sumLens body ∧
      (body = [] → e.line_blen = 0 ∧ e.line_len = 0) ∧
      (body ≠ [] → e.line_blen = (body.headD []).length ∧ e.line_len = e.line_blen + 1 ∧
        bodyFits e.line_blen body = true) := by
  obtain ⟨pre, hdr, body, post, hsplit, hhdr, hname, hbody, hpost⟩ :=
    entry_decomp lines idx name e hb hl
  obtain ⟨e2, hlook2, hename, hedesc, heoff, helen, hempty, hnonempty⟩ :=
    build_record lines idx pre hdr body post hb hsplit hhdr hbody hpost
  rw [hname, hl] at hlook2
  injection hlook2 with he2
  subst he2
  exact ⟨pre, hdr, body, post, hsplit, hhdr, hname, hbody, hpost, hename, hedesc,
    heoff, helen, hempty, hnonempty⟩

/-- The fetcher's result on a valid range, given the record layout facts:
the uppercased slice of the record's flattened content lines. -/
theorem fetch_eq_of_record (lines : List (List Char)) (idx : Index) (name : List Char)
    (e : Entry) (start stop : Int) (pre : List (List Char)) (hdr : List Char)
    (body post : List (List Char))
    (hl : lookupIndex idx name = some e)
    (hsplit : lines = pre ++ hdr :: (body ++ post))
    (heoff : e.offset = bytesL pre + hdr.length + 1)
    (helen : e.length = sumLens body)
    (hllen : e.line_len = e.line_blen + 1)
    (hfits : bodyFits e.line_blen body = true)
    (h1 : 1 ≤ start) (h2 : start ≤ stop) (h3 : stop ≤ (e.length : Int)) :
    fetch_subseq (rawChars lines) idx name start stop =
      .ok ((((body.flatten).drop (start - 1).toNat).take (stop - start + 1).toNat).map upChar) := by
  have hbpos : 0 < e.line_blen := by
    by_contra hc
    push_neg at hc
    have hz0 : e.line_blen = 0 := by omega
    rw [hz0] at hfits
    have := bodyFits_zero body hfits
    omega
  have hzn : (start - 1).toNat + (stop - start + 1).toNat ≤ e.length := by omega
  have hraw : rawChars lines =
      (rawChars pre ++ (hdr ++ ['\n'])) ++ (rawChars body ++ rawChars post) := by
    rw [hsplit, rawChars_append, rawChars_cons, rawChars_append]
    simp [List.append_assoc]
  have hAlen : (rawChars pre ++ (hdr ++ ['\n'])).length = e.offset := by
    rw [List.length_append, length_rawChars, heoff]
    simp only [List.length_append, List.length_cons, List.length_nil]
    omega
  have hbase : ∀ k, k < (stop - start + 1).toNat →
      posOf e.offset e.line_blen ((start - 1).toNat + k) < (rawChars lines).length ∧
      (rawChars lines).getD (posOf e.offset e.line_blen ((start - 1).toNat + k)) 'A' =
        (body.flatten).getD ((start - 1).toNat + k) 'A' := by
    intro k hk
    have hj : (start - 1).toNat + k < sumLens body := by
      rw [← helen]
      omega
    obtain ⟨hlt, hval⟩ :=
      bodyPos e.line_blen hbpos 'A' body ((start - 1).toNat + k) hfits hj
    have hposOf : posOf e.offset e.line_blen ((start - 1).toNat + k) =
        (rawChars pre ++ (hdr ++ ['\n'])).length +
          ((((start - 1).toNat + k) / e.line_blen) * (e.line_blen + 1) +
            ((start - 1).toNat + k) % e.line_blen) := by
      rw [hAlen, posOf]
      omega
    constructor
    · have h4 : (rawChars body).length = bytesL body := length_rawChars body
      have h5 : (rawChars lines).length =
          (rawChars pre ++ (hdr ++ ['\n'])).length +
            ((rawChars body).length + (rawChars post).length) := by
        rw [hraw]
        simp only [List.length_append, List.length_cons, List.length_nil]
      rw [h5, hposOf]
      omega
    · rw [hraw, hposOf, getD_append_right]
      rw [getD_append_left (by rw [length_rawChars]; exact hlt)]
      exact hval
  simp only [fetch_subseq, hl]
  rw [if_neg (by omega)]
  congr 1
  rw [hllen]
  rw [show e.line_blen + 1 - e.line_blen = 1 by omega]
  have hpos_eq : e.offset + (start - 1).toNat / e.line_blen * (e.line_blen + 1) +
      (start - 1).toNat % e.line_blen = posOf e.offset e.line_blen (start - 1).toNat := rfl
  rw [hpos_eq]
  rw [readChunks_spec (rawChars lines) e.offset e.line_blen _ _ hbpos
    (fun k hk => (hbase k hk).1)]
  rw [slice_eq_map_getD (body.flatten) (start - 1).toNat (stop - start + 1).toNat 'A' (by
    rw [List.length_flatten]
    have hfl : (List.map List.length body).sum = sumLens body := rfl
    rw [hfl, ← helen]
    omega)]
  congr 1
  apply List.map_congr_left
  intro k hk
  rw [List.mem_range] at hk
  exact (hbase k hk).2



/-- C1: for every name in a built index and all valid coordinates
`1 ≤ start ≤ stop ≤ entry.length`, the fetched subsequence equals the
substring of the naive full-record fetch `fetch(name, 1, length)` at
0-based positions `start-1 .. stop-1` inclusive. -/
theorem C1_offset_correctness (lines : List (List Char)) (idx : Index)
    (name : List Char) (e : Entry) (start stop : Int)
    (hbuild : build_index lines = .ok idx)
    (hlook : lookupIndex idx name = some e)
    (h1 : 1 ≤ start) (h2 : start ≤ stop) (h3 : stop ≤ (e.length : Int)) :
    ∃ s full, fetch_subseq (rawChars lines) idx name start stop = .ok s ∧
      fetch_subseq (rawChars lines) idx name 1 (e.length : Int) = .ok full ∧
      s = (full.drop (start - 1).toNat).take (stop - start + 1).toNat := by
  obtain ⟨pre, hdr, body, post, hsplit, hhdr, hname, hbody, hpost, hename, hedesc,
    heoff, helen, hempty, hnonempty⟩ := record_of_lookup lines idx name e hbuild hlook
  have hbne : body ≠ [] := by
    intro hc
    subst hc
    rw [show sumLens ([] : List (List Char)) = 0 from rfl] at helen
    omega
  obtain ⟨hblen, hllen, hfits⟩ := hnonempty hbne
  have heq1 := fetch_eq_of_record lines idx name e start stop pre hdr body post
    hlook hsplit heoff helen hllen hfits h1 h2 h3
  have heq2 := fetch_eq_of_record lines idx name e 1 (e.length : Int) pre hdr body post
    hlook hsplit heoff helen hllen hfits (by omega) (by omega) (by omega)
  have hflatlen : body.flatten.length = e.length := by
    rw [List.length_flatten]
    exact helen.symm
  have hfull : ((((body.flatten).drop ((1 : Int) - 1).toNat).take
      (((e.length : Int)) - 1 + 1).toNat).map upChar) = (body.flatten).map upChar := by
    rw [show ((1 : Int) - 1).toNat = 0 from rfl, List.drop_zero]
    rw [show (((e.length : Int)) - 1 + 1).toNat = e.length by omega]
    rw [← hflatlen, List.take_length]
  rw [hfull] at heq2
  refine ⟨_, _, heq1, heq2, ?_⟩
  rw [List.map_take, List.map_drop]

/-- C2 (amended): for every record of the file with at least one content
line and a positive base count, fetching the full range `(1, length)`
returns exactly the concatenation of the record's content lines, in file
order, terminators stripped, uppercased. -/
theorem C2_full_fetch_roundtrip (lines : List (List Char)) (idx : Index)
    (pre : List (List Char)) (hdr : List Char) (body post : List (List Char))
    (hbuild : build_index lines = .ok idx)
    (hsplit : lines = pre ++ hdr :: (body ++ post))
    (hhdr : isHeaderB hdr = true)
    (hbody : ∀ l ∈ body, isHeaderB l = false)
    (hpost : post = [] ∨ isHeaderB (post.headD []) = true)
    (hpos : 0 < sumLens body) :
    ∃ e, lookupIndex idx (nameTok hdr) = some e ∧ e.length = sumLens body ∧
      fetch_subseq (rawChars lines) idx (nameTok hdr) 1 (e.length : Int) =
        .ok ((body.flatten).map upChar) := by
  obtain ⟨e, hlook, hename, hedesc, heoff, helen, hempty, hnonempty⟩ :=
    build_record lines idx pre hdr body post hbuild hsplit hhdr hbody hpost
  have hbne : body ≠ [] := by
    intro hc
    subst hc
    rw [show sumLens ([] : List (List Char)) = 0 from rfl] at hpos
    omega
  obtain ⟨hblen, hllen, hfits⟩ := hnonempty hbne
  have heq := fetch_eq_of_record lines idx (nameTok hdr) e 1 (e.length : Int) pre hdr
    body post hlook hsplit heoff helen hllen hfits (by omega) (by omega) (by omega)
  have hflatlen : body.flatten.length = e.length := by
    rw [List.length_flatten]
    exact helen.symm
  have hfull : ((((body.flatten).drop ((1 : Int) - 1).toNat).take
      (((e.length : Int)) - 1 + 1).toNat).map upChar) = (body.flatten).map upChar := by
    rw [show ((1 : Int) - 1).toNat = 0 from rfl, List.drop_zero]
    rw [show (((e.length : Int)) - 1 + 1).toNat = e.length by omega]
    rw [← hflatlen, List.take_length]
  rw [hfull] at heq
  exact ⟨e, hlook, helen, heq⟩

/-- C3: every successful fetch against a built index returns exactly
`stop - start + 1` characters, none of them lowercase, with no embedded
line terminator, and equal to the file-order slice of the record's
content. -/
theorem C3_success_properties (lines : List (List Char)) (idx : Index)
    (name : List Char) (e : Entry) (start stop : Int) (s : List Char)
    (hwf : ∀ l ∈ lines, ('\n') ∉ l)
    (hbuild : build_index lines = .ok idx)
    (hlook : lookupIndex idx name = some e)
    (hfetch : fetch_subseq (rawChars lines) idx name start stop = .ok s) :
    s.length = (stop - start + 1).toNat ∧
    1 ≤ start ∧ start ≤ stop ∧ stop ≤ (e.length : Int) ∧
    (∀ c ∈ s, isLowerAlpha c = false) ∧ ('\n') ∉ s ∧
    ∃ pre hdr body post, lines = pre ++ hdr :: (body ++ post) ∧ isHeaderB hdr = true ∧
      nameTok hdr = name ∧ (∀ l ∈ body, isHeaderB l = false) ∧
      s = (((body.flatten).drop (start - 1).toNat).take (stop - start + 1).toNat).map upChar := by
  have hrange : 1 ≤ start ∧ start ≤ stop ∧ stop ≤ (e.length : Int) := by
    by_contra hc
    have hbad : start < 1 ∨ stop < start ∨ (e.length : Int) < stop := by omega
    simp only [fetch_subseq, hlook, if_pos hbad] at hfetch
    cases hfetch
  obtain ⟨h1, h2, h3⟩ := hrange
  obtain ⟨pre, hdr, body, post, hsplit, hhdr, hname, hbody, hpost, hename, hedesc,
    heoff, helen, hempty, hnonempty⟩ := record_of_lookup lines idx name e hbuild hlook
  have hbne : body ≠ [] := by
    intro hcon
    subst hcon
    rw [show sumLens ([] : List (List Char)) = 0 from rfl] at helen
    omega
  obtain ⟨hblen, hllen, hfits⟩ := hnonempty hbne
  have heq := fetch_eq_of_record lines idx name e start stop pre hdr body post
    hlook hsplit heoff helen hllen hfits h1 h2 h3
  rw [heq] at hfetch
  injection hfetch with hs
  have hflatlen : body.flatten.length = e.length := by
    rw [List.length_flatten]
    exact helen.symm
  refine ⟨?_, h1, h2, h3, ?_, ?_, pre, hdr, body, post, hsplit, hhdr, hname, hbody, hs.symm⟩
  · rw [← hs, List.length_map, List.length_take, List.length_drop, hflatlen]
    omega
  · intro c hc
    rw [← hs] at hc
    rw [List.mem_map] at hc
    obtain ⟨c0, _, hc0⟩ := hc
    rw [← hc0]
    exact upChar_not_lower c0
  · intro hc
    rw [← hs] at hc
    rw [List.mem_map] at hc
    obtain ⟨c0, hc0mem, hc0⟩ := hc
    have hc0nl : c0 = '\n' := upChar_newline c0 hc0
    subst hc0nl
    have hmem1 : ('\n') ∈ body.flatten :=
      List.mem_of_mem_drop (List.mem_of_mem_take hc0mem)
    rw [List.mem_flatten] at hmem1
    obtain ⟨l, hl1, hl2⟩ := hmem1
    have hlin : l ∈ lines := by
      rw [hsplit]
      refine List.mem_append_right _ ?_
      refine List.mem_cons_of_mem _ ?_
      exact List.mem_append_left _ hl1
    exact hwf l hlin hl2



/-- C5 (amended): a file containing two header lines with the same name
token never builds an index (no silent overwrite): the build fails, with
`DuplicateNameError` unless an earlier structural defect already raised
`FormatError`. -/
theorem C5_duplicate_never_overwrites (lines A B C : List (List Char)) (h1 h2 : List Char)
    (hsplit : lines = A ++ h1 :: (B ++ h2 :: C))
    (hh1 : isHeaderB h1 = true) (hh2 : isHeaderB h2 = true)
    (heq : nameTok h1 = nameTok h2) :
    build_index lines = .error .FormatError ∨
    build_index lines = .error .DuplicateNameError := by
  cases hb : build_index lines with
  | error err =>
    rcases build_error_class lines err hb with h | h
    · rw [h]
      exact Or.inl rfl
    · rw [h]
      exact Or.inr rfl
  | ok idx =>
    exfalso
    have hb2 : go lines 0 [] none = .ok idx := by
      rw [build_index, if_neg (by rw [hsplit]; simp)] at hb
      exact hb
    have hnd := go_nodup lines 0 [] none idx hb2 (by simp [keysOf])
    have hkeys := go_keys lines 0 [] none idx hb2
    simp only [keysOf, List.map_nil, curNames, List.nil_append] at hkeys
    rw [keysOf] at hnd
    rw [hkeys] at hnd
    rw [hsplit, headerToks, List.filter_append, List.filter_cons, if_pos hh1,
      List.filter_append, List.filter_cons, if_pos hh2, List.map_append, List.map_cons,
      List.map_append, List.map_cons] at hnd
    have hsub := List.Nodup.of_append_right hnd
    have hnotmem := (List.nodup_cons.mp hsub).1
    apply hnotmem
    rw [heq]
    exact List.mem_append_right _ (List.mem_cons_self _ _)

/-- C6 (amended): `build_index` fails with `FormatError` on an empty
file and on a content line before any header; a record whose interior
content lines are ragged also makes it fail, with `FormatError` unless a
duplicate name is finalized earlier in the scan. -/
theorem C6_malformed_rejected :
    build_index [] = .error .FormatError ∧
    (∀ (l : List Char) (rest : List (List Char)), isHeaderB l = false →
      build_index (l :: rest) = .error .FormatError) ∧
    (∀ (A : List (List Char)) (hdr : List Char) (body C : List (List Char)),
      isHeaderB hdr = true → (∀ x ∈ body, isHeaderB x = false) → raggedB body = true →
      build_index (A ++ hdr :: (body ++ C)) = .error .FormatError ∨
      build_index (A ++ hdr :: (body ++ C)) = .error .DuplicateNameError) := by
  refine ⟨rfl, ?_, ?_⟩
  · intro l rest hl
    rw [build_index, if_neg (by simp)]
    have hl2 : ¬ isHeaderB l = true := by simp [hl]
    simp only [go, if_neg hl2]
  · intro A hdr body C hhdr hbody hrag
    cases hb : build_index (A ++ hdr :: (body ++ C)) with
    | error err =>
      rcases build_error_class _ err hb with h | h
      · rw [h]
        exact Or.inl rfl
      · rw [h]
        exact Or.inr rfl
    | ok idx =>
      exfalso
      have hsplit : A ++ hdr :: (body ++ C) =
          A ++ hdr :: (((body ++ C).takeWhile (fun x => !isHeaderB x)) ++
            ((body ++ C).dropWhile (fun x => !isHeaderB x))) := by
        rw [List.takeWhile_append_dropWhile]
      have hbody2 : ∀ l ∈ (body ++ C).takeWhile (fun x => !isHeaderB x),
          isHeaderB l = false := by
        intro l hl
        have := List.mem_takeWhile_imp hl
        simpa using this
      have hpost2 : ((body ++ C).dropWhile (fun x => !isHeaderB x)) = [] ∨
          isHeaderB (((body ++ C).dropWhile (fun x => !isHeaderB x)).headD []) = true := by
        cases hd : (body ++ C).dropWhile (fun x => !isHeaderB x) with
        | nil => exact Or.inl rfl
        | cons p t =>
          right
          have := dropWhile_head_false _ (body ++ C) p t hd
          simp only [List.headD_cons]
          simpa using this
      obtain ⟨e, hlook, hename, hedesc, heoff, helen, hempty, hnonempty⟩ :=
        build_record _ idx A hdr _ _ hb hsplit hhdr hbody2 hpost2
      have hragE : ∃ i, i + 1 < body.length ∧
          (body.getD i []).length ≠ (body.getD 0 []).length := by
        rw [raggedB, List.any_eq_true] at hrag
        obtain ⟨i, _, hi2⟩ := hrag
        simp only [Bool.and_eq_true, decide_eq_true_eq] at hi2
        exact ⟨i, hi2.1, hi2.2⟩
      obtain ⟨i, hi1, hi2⟩ := hragE
      have hbne2 : body ≠ [] := by
        intro hcon
        subst hcon
        simp at hi1
      have htk : (body ++ C).takeWhile (fun x => !isHeaderB x) =
          body ++ C.takeWhile (fun x => !isHeaderB x) := by
        apply takeWhile_append_all
        intro x hx
        simp [hbody x hx]
      rw [htk] at hnonempty
      have hbne3 : body ++ C.takeWhile (fun x => !isHeaderB x) ≠ [] := by
        intro hcon
        exact hbne2 (List.append_eq_nil.mp hcon).1
      obtain ⟨hblen, hllen, hfits⟩ := hnonempty hbne3
      have hu := bodyFits_interior e.line_blen _ hfits
      have hlen2 : body.length ≤ (body ++ C.takeWhile (fun x => !isHeaderB x)).length := by
        simp
      have hgetD : ∀ j, j < body.length →
          ((body ++ C.takeWhile (fun x => !isHeaderB x)).getD j ([] : List Char)) =
            body.getD j [] := by
        intro j hj
        exact getD_append_left hj []
      have h0 := hu i (by omega)
      have h00 := hu 0 (by omega)
      rw [hgetD i (by omega)] at h0
      rw [hgetD 0 (by omega)] at h00
      exact hi2 (by rw [h0, h00])

/-- C5 counterexample: this file contains two headers with the same name
token, yet `build_index` fails with `FormatError` (a ragged record is hit
before the duplicate is finalized), not `DuplicateNameError`. -/
theorem C5_counterexample :
    (isHeaderB (['>', 'X'] : List Char) = true ∧
     exC5 = [] ++ ['>', 'X'] :: ([] ++ ['>', 'X'] :: [['A', 'B'], ['A'], ['A', 'B']])) ∧
    build_index exC5 = .error .FormatError ∧
    ¬ build_index exC5 = .error .DuplicateNameError := by decide

/-- C6 counterexample: this file contains a record (header `>Y`) whose
interior content lines are ragged, yet `build_index` fails with
`DuplicateNameError` (an earlier duplicate is finalized first), not
`FormatError`. -/
theorem C6_counterexample :
    (isHeaderB (['>', 'Y'] : List Char) = true ∧
     (∀ x ∈ [['A', 'B'], ['A'], ['A', 'B']], isHeaderB x = false) ∧
     raggedB [['A', 'B'], ['A'], ['A', 'B']] = true ∧
     exC6 = [['>', 'X'], ['>', 'X']] ++ ['>', 'Y'] :: ([['A', 'B'], ['A'], ['A', 'B']] ++ [])) ∧
    build_index exC6 = .error .DuplicateNameError ∧
    ¬ build_index exC6 = .error .FormatError := by decide

/-- C2 counterexample: the record `X` has one (blank) content line, its
entry is built from the file with `length = 0`, and the full-range fetch
`(1, entry.length)` fails with `RangeError` instead of returning the
(empty) concatenation of content lines. -/
theorem C2_counterexample :
    build_index exC2 = .ok [(['X'], ⟨['X'], [], 0, 0, 1, 3⟩)] ∧
    (∀ x ∈ [([] : List Char)], isHeaderB x = false) ∧
    exC2 = [] ++ ['>', 'X'] :: ([[]] ++ []) ∧
    fetch_subseq (rawChars exC2) [(['X'], ⟨['X'], [], 0, 0, 1, 3⟩)] ['X'] 1
      (((⟨['X'], [], 0, 0, 1, 3⟩ : Entry).length : Nat) : Int) = .error .RangeError := by
  decide

theorem C1_witness :
    ∃ s full, fetch_subseq (rawChars exW) exWIdx ['s'] 2 3 = .ok s ∧
      fetch_subseq (rawChars exW) exWIdx ['s'] 1 3 = .ok full ∧
      s = (full.drop ((2 : Int) - 1).toNat).take ((3 : Int) - 2 + 1).toNat :=
  C1_offset_correctness exW exWIdx ['s'] ⟨['s'], ['d'], 3, 2, 3, 5⟩ 2 3 (by decide)
    (by decide) (by decide) (by decide) (by decide)

theorem C2_witness :
    ∃ e, lookupIndex exWIdx (nameTok ['>', 's', ' ', 'd']) = some e ∧
      e.length = sumLens [['A', 'C'], ['G']] ∧
      fetch_subseq (rawChars exW) exWIdx (nameTok ['>', 's', ' ', 'd']) 1 (e.length : Int) =
        .ok (([['A', 'C'], ['G']].flatten).map upChar) :=
  C2_full_fetch_roundtrip exW exWIdx [] ['>', 's', ' ', 'd'] [['A', 'C'], ['G']] []
    (by decide) (by decide) (by decide) (by decide) (by decide) (by decide)

theorem C3_witness :
    (['A', 'C', 'G'] : List Char).length = ((3 : Int) - 1 + 1).toNat ∧
    (1 : Int) ≤ 1 ∧ (1 : Int) ≤ 3 ∧
    (3 : Int) ≤ (((⟨['s'], ['d'], 3, 2, 3, 5⟩ : Entry).length : Nat) : Int) ∧
    (∀ c ∈ (['A', 'C', 'G'] : List Char), isLowerAlpha c = false) ∧
    ('\n') ∉ (['A', 'C', 'G'] : List Char) ∧
    (∃ pre hdr body post, exW = pre ++ hdr :: (body ++ post) ∧ isHeaderB hdr = true ∧
      nameTok hdr = ['s'] ∧ (∀ l ∈ body, isHeaderB l = false) ∧
      (['A', 'C', 'G'] : List Char) =
        (((body.flatten).drop ((1 : Int) - 1).toNat).take ((3 : Int) - 1 + 1).toNat).map upChar) :=
  C3_success_properties exW exWIdx ['s'] ⟨['s'], ['d'], 3, 2, 3, 5⟩ 1 3 ['A', 'C', 'G']
    (by decide) (by decide) (by decide) (by decide)

theorem C5_witness :
    build_index [['>', 'X'], ['>', 'X']] = .error .FormatError ∨
    build_index [['>', 'X'], ['>', 'X']] = .error .DuplicateNameError :=
  C5_duplicate_never_overwrites [['>', 'X'], ['>', 'X']] [] [] [] ['>', 'X'] ['>', 'X']
    (by decide) (by decide) (by decide) (by decide)


end FASTAccess
